import Mathlib

/-!
Verification development for the RFID phase feature-extraction core.

The source is a single React component file. Its numeric core (signal
cleaning, statistical and spectral feature computation, sliding-window
trend captioning, and the multi-channel window merge) is embedded here
shallowly:

* JavaScript numbers that can be NaN or infinite are modelled by `JSNum`
  (a finite rational or one of the three non-finite values); arithmetic
  that the source only ever performs on finite, filtered values is
  modelled exactly over `ℚ`.
* Values that the source derives through irrational operations
  (square roots, logarithms, the Fourier transform) live in `ℝ`; those
  definitions are noncomputable but every branch condition on them is
  irrelevant to the claims settled here.
* A field that the source sets to `NaN` as an "undefined" sentinel is
  modelled as `none` in an `Option`-typed field.
* The loop `for (start = T0; start <= T1 - 1e-9; start += hopSec)` is
  modelled by the explicit start list `windowStart T0 hop k` for
  `k < numWindows T0 T1 hop`; the two coincide for `hop > 0`, the only
  regime in which the source loop terminates.
-/

/-- Model of a JavaScript number as consumed by the cleaning and gating
code: either a finite value (modelled exactly as a rational) or one of
the non-finite values NaN, +Infinity, -Infinity. -/
inductive JSNum where
  | fin : ℚ → JSNum
  | nan : JSNum
  | posInf : JSNum
  | negInf : JSNum
deriving DecidableEq

/-- Source helper `isFiniteNum`: `Number.isFinite(v) && !Number.isNaN(v)`. -/
def JSNum.isFiniteNum : JSNum → Bool
  | .fin _ => true
  | _ => false

/-- The rational carried by a finite `JSNum` (junk value 0 for the
non-finite values, which the source never feeds into arithmetic after
filtering). -/
def JSNum.toQ : JSNum → ℚ
  | .fin q => q
  | _ => 0

/-- Source constant `EPS = 1e-12`. -/
def EPS : ℚ := 1e-12

/-- Source `median`: filter to finite values, sort ascending, take the
middle element (odd length) or the mean of the two middle elements (even
length); NaN (here `none`) on an empty list. Over `ℚ` every value is
finite, so the source's finiteness filter is the identity. -/
def median (arr : List ℚ) : Option ℚ :=
  let a := arr.mergeSort (fun x y => decide (x ≤ y))
  if a.length = 0 then none
  else
    let m := a.length / 2
    if a.length % 2 = 1 then some (a.getD m 0)
    else some ((a.getD (m - 1) 0 + a.getD m 0) / 2)

/-- Source `medianAbsDeviation`: median of absolute deviations from the
median. When the median is NaN (empty input) every deviation is NaN and
the inner median is NaN again, modelled by propagating `none`. -/
def medianAbsDeviation (arr : List ℚ) : Option ℚ :=
  match median arr with
  | none => none
  | some m => median (arr.map (fun v => |v - m|))

/-- Source `autocorrDecayHalf`: mean-centre, compute the raw
autocovariance `ac lag` by direct summation, return 0 when the lag-0
energy is below `EPS`, otherwise the first lag whose normalised value
drops below 0.5, and the length `n` if none does or if `n < 3`. -/
def autocorrDecayHalf (x : List ℚ) : ℕ :=
  if x.length < 3 then x.length
  else
    let n := x.length
    let mean := x.sum / (n : ℚ)
    let xc := x.map (fun v => v - mean)
    let ac : ℕ → ℚ := fun lag =>
      ((List.range (n - lag)).map (fun i => xc.getD i 0 * xc.getD (i + lag) 0)).sum
    if |ac 0| < EPS then 0
    else
      match (List.range' 1 (n - 1)).find? (fun i => decide (ac i / ac 0 < 1 / 2)) with
      | some i => i
      | none => n

/-- Source `linearFitSlope`: closed-form least squares returning the
slope and the epsilon-guarded R-squared; NaN for both (here `none`) when
fewer than two points are given. The source reads `t[i]*y[i]` pairwise,
modelled by `zip`. -/
def linearFitSlope (t y : List ℚ) : Option (ℚ × ℚ) :=
  let n := t.length
  if n < 2 then none
  else
    let sumT := t.sum
    let sumY := y.sum
    let sumTT := (t.map (fun v => v * v)).sum
    let sumTY := ((t.zip y).map (fun p => p.1 * p.2)).sum
    let denom := (n : ℚ) * sumTT - sumT * sumT + EPS
    let m := ((n : ℚ) * sumTY - sumT * sumY) / denom
    let b := (sumY - m * sumT) / (n : ℚ)
    let yhat := t.map (fun v => m * v + b)
    let meanY := sumY / (n : ℚ)
    let ssRes := ((y.zip yhat).map (fun p => (p.1 - p.2) ^ 2)).sum
    let ssTot := (y.map (fun v => (v - meanY) ^ 2)).sum
    some (m, 1 - ssRes / (ssTot + EPS))

/-- Source `medianDelta`: the median of the positive adjacent time
deltas. -/
def medianDelta (time : List ℚ) : Option ℚ :=
  median ((List.zipWith (fun a b => a - b) (time.drop 1) time).filter (fun dt => decide (0 < dt)))

/-- The five structural caption labels the source emits. -/
inductive Label where
  | sharpRise
  | sharpDrop
  | increasing
  | decreasing
  | constant
deriving DecidableEq

/-- Source `isPowerOfTwo`: `n > 1 && (n & (n - 1)) === 0`. -/
def isPowerOfTwo (n : ℕ) : Bool := decide (1 < n) && (n &&& (n - 1) == 0)

/-- Loop body of the source `nextPow2`: double `p` until it reaches `m`. -/
def nextPow2Go (m p : ℕ) (hp : 0 < p) : ℕ :=
  if h : p < m then nextPow2Go m (2 * p) (by omega) else p
termination_by m - p
decreasing_by omega

/-- Source `nextPow2`: smallest power of two reaching `max 2 n`, computed
by the doubling loop starting at 1. -/
def nextPow2 (n : ℕ) : ℕ := nextPow2Go (max 2 n) 1 (by omega)

/-- Modelled from the spec: the real-FFT transform itself comes from the
external fft.js dependency, which is not part of this repository. Per
section 4.3 of the specification the power at bin `k` of the real
discrete Fourier transform of the zero-padded signal `z` of length `N`
is `(Re^2 + Im^2)/N`. -/
noncomputable def dftPower (z : List ℚ) (N k : ℕ) : ℝ :=
  let re : ℝ := ∑ j ∈ Finset.range N, (z.getD j 0 : ℝ) * Real.cos (2 * Real.pi * j * k / N)
  let im : ℝ := ∑ j ∈ Finset.range N, -((z.getD j 0 : ℝ) * Real.sin (2 * Real.pi * j * k / N))
  (re ^ 2 + im ^ 2) / N

/-- Result pair of the source `rfftPower`: frequencies (rational since
they are `k*fs/N`) and the real power spectrum. -/
structure Spectrum where
  freqs : List ℚ
  power : List ℝ

/-- Source `rfftPower`: empty spectrum when `fs` is not a finite positive
number or fewer than two finite samples remain; otherwise mean-centre the
finite samples, zero-pad to `N` (the next power of two unless the length
already is one), and return the one-sided spectrum of `N/2 + 1` bins. -/
noncomputable def rfftPower (xIn : List JSNum) (fs : JSNum) : Spectrum :=
  if !fs.isFiniteNum || decide (fs.toQ ≤ 0) then ⟨[], []⟩
  else
    let x := (xIn.filter JSNum.isFiniteNum).map JSNum.toQ
    let n := x.length
    if n < 2 then ⟨[], []⟩
    else
      let xm := x.sum / (n : ℚ)
      let z := x.map (fun v => v - xm)
      let N := if isPowerOfTwo n then n else nextPow2 n
      let half := N / 2
      ⟨(List.range (half + 1)).map (fun k => (k : ℚ) * fs.toQ / (N : ℚ)),
       (List.range (half + 1)).map (fun k => dftPower z N k)⟩

/-- Source `spectralEntropy`: Shannon entropy in bits of the normalised
power spectrum, 0 when the total power is not positive. -/
noncomputable def spectralEntropy (power : List ℝ) : ℝ :=
  let sum := power.sum
  if 0 < sum then (power.map (fun v => -(v / sum) * Real.logb 2 (v / sum + (EPS : ℚ)))).sum
  else 0

/-- The eight spectral output fields of the source `spectralFeatures`,
with `none` standing for the NaN sentinel. -/
structure SpectralResult where
  spectral_centroid : Option ℝ
  ent : Option ℝ
  f1 : Option ℚ
  f1_power : Option ℝ
  band_0_2 : Option ℝ
  band_2_5 : Option ℝ
  band_5_10 : Option ℝ
  band_10_20 : Option ℝ

/-- The all-NaN spectral result the source returns from both guard
branches of `spectralFeatures`. -/
def spectralNaN : SpectralResult :=
  ⟨none, none, none, none, none, none, none, none⟩

/-- Arg-max loop of the source `spectralFeatures` (`idx = 0; for i = 1..`,
strict improvement, ties keep the earlier index). -/
noncomputable def argmaxIdx (power : List ℝ) : ℕ :=
  (List.range' 1 (power.length - 1)).foldl
    (fun idx i => if power.getD idx 0 < power.getD i 0 then i else idx) 0

/-- Source band helper inside `spectralFeatures`: sum of the power at
bins whose frequency lies in the half-open band `[a, b)`. -/
noncomputable def bandSum (freqs : List ℚ) (power : List ℝ) (a b : ℚ) : ℝ :=
  ((List.range freqs.length).filter
      (fun i => decide (a ≤ freqs.getD i 0) && decide (freqs.getD i 0 < b))).foldl
    (fun s i => s + power.getD i 0) 0

/-- Source `spectralFeatures`: all-NaN result when `fs` is not finite or
the raw input length is below 8; otherwise compute the spectrum, and
return all-NaN again when it came back empty, else the seven derived
spectral quantities. -/
noncomputable def spectralFeatures (x : List JSNum) (fs : JSNum) : SpectralResult :=
  if !fs.isFiniteNum || decide (x.length < 8) then spectralNaN
  else
    let s := rfftPower x fs
    if s.freqs.length = 0 then spectralNaN
    else
      let sumP := s.power.sum + (EPS : ℚ)
      let sc := ((s.freqs.zip s.power).map (fun p => (p.1 : ℝ) * p.2)).sum / sumP
      let idx := argmaxIdx s.power
      { spectral_centroid := some sc,
        ent := some (spectralEntropy s.power),
        f1 := some (s.freqs.getD idx 0),
        f1_power := some (s.power.getD idx 0),
        band_0_2 := some (bandSum s.freqs s.power 0 2),
        band_2_5 := some (bandSum s.freqs s.power 2 5),
        band_5_10 := some (bandSum s.freqs s.power 5 10),
        band_10_20 := some (bandSum s.freqs s.power 10 20) }

/-- The 21 per-channel feature fields of the source
`computeSeriesFeatures`. A `none` models the NaN sentinel; `low_mid`
backs the source key for the low/mid band quotient. -/
structure FeatureVector where
  fs : Option ℚ
  n : Option ℚ
  mean : Option ℚ
  std : Option ℝ
  mad : Option ℚ
  rng : Option ℚ
  skew : Option ℝ
  kurt : Option ℝ
  cv : Option ℝ
  slope : Option ℚ
  slope_r2 : Option ℚ
  ac_half : Option ℚ
  spectral_centroid : Option ℝ
  spectral_entropy : Option ℝ
  dom_freq : Option ℚ
  dom_power : Option ℝ
  band_0_2 : Option ℝ
  band_2_5 : Option ℝ
  band_5_10 : Option ℝ
  band_10_20 : Option ℝ
  low_mid : Option ℝ

/-- Source `computeSeriesFeatures`: filter both inputs to finite values,
align to the shorter length `n`; if `n < 4` return the sentinel record
(every field NaN except the count `n` itself); otherwise compute the
time-domain statistics, the trend fit, the autocorrelation half-life,
the sampling-rate estimate and the spectral features. -/
noncomputable def computeSeriesFeatures (time yIn : List JSNum) : FeatureVector :=
  let timeClean := (time.filter JSNum.isFiniteNum).map JSNum.toQ
  let y := (yIn.filter JSNum.isFiniteNum).map JSNum.toQ
  let n := min timeClean.length y.length
  if n < 4 then
    { fs := none, n := some (n : ℚ), mean := none, std := none, mad := none, rng := none,
      skew := none, kurt := none, cv := none, slope := none, slope_r2 := none, ac_half := none,
      spectral_centroid := none, spectral_entropy := none, dom_freq := none, dom_power := none,
      band_0_2 := none, band_2_5 := none, band_5_10 := none, band_10_20 := none, low_mid := none }
  else
    let yy := y.take n
    let tt := timeClean.take n
    let mean := yy.sum / (n : ℚ)
    let std : ℝ := Real.sqrt ((((yy.map (fun v => (v - mean) ^ 2)).sum / (n : ℚ) : ℚ) : ℝ))
    let mad := medianAbsDeviation yy
    let rng := (yy.max?.getD 0) - (yy.min?.getD 0)
    let x0 : List ℝ :=
      if 0 < std then yy.map (fun v => ((v : ℝ) - (mean : ℚ)) / (std + (EPS : ℚ)))
      else yy.map (fun _ => 0)
    let skew : ℝ := (x0.map (fun v => v ^ 3)).sum / ((n : ℚ) : ℝ)
    let kurt : ℝ := (x0.map (fun v => v ^ 4)).sum / ((n : ℚ) : ℝ) - 3
    let cv : ℝ := std / ((|mean| + EPS : ℚ) : ℝ)
    let lf := linearFitSlope tt yy
    let acHalf := autocorrDecayHalf yy
    let dtMed := medianDelta tt
    let fs : Option ℚ :=
      match dtMed with
      | some d => if 0 < d then some (1 / d) else none
      | none => none
    let spec := spectralFeatures (yy.map JSNum.fin)
      (match fs with | some q => JSNum.fin q | none => JSNum.nan)
    let lowMid : Option ℝ :=
      match spec.band_0_2 with
      | some b02 => some (b02 / ((spec.band_2_5.getD 0) + (spec.band_5_10.getD 0) + (EPS : ℚ)))
      | none => none
    { fs := fs, n := some (n : ℚ), mean := some mean, std := some std, mad := mad,
      rng := some rng, skew := some skew, kurt := some kurt, cv := some cv,
      slope := lf.map Prod.fst, slope_r2 := lf.map Prod.snd, ac_half := some (acHalf : ℚ),
      spectral_centroid := spec.spectral_centroid, spectral_entropy := spec.ent,
      dom_freq := spec.f1, dom_power := spec.f1_power,
      band_0_2 := spec.band_0_2, band_2_5 := spec.band_2_5, band_5_10 := spec.band_5_10,
      band_10_20 := spec.band_10_20, low_mid := lowMid }

/-- One parsed CSV record after `Number(...)` conversion of the five
required columns (the CSV parsing itself is an external collaborator). -/
structure RawRow where
  time_s : JSNum
  tag1_residual_rad : JSNum
  tag2_residual_rad : JSNum
  tag1_detrend_rad : JSNum
  tag2_detrend_rad : JSNum
deriving DecidableEq

/-- The row-retention test of `parseAll`:
`[t, a1, a2, d1, d2].every(isFiniteNum)`. -/
def rowAllFinite (r : RawRow) : Bool :=
  r.time_s.isFiniteNum && r.tag1_residual_rad.isFiniteNum && r.tag2_residual_rad.isFiniteNum &&
    r.tag1_detrend_rad.isFiniteNum && r.tag2_detrend_rad.isFiniteNum

/-- The cleaning step of `parseAll`: keep exactly the rows passing
`rowAllFinite`, in order. -/
def cleanRows (raw : List RawRow) : List RawRow := raw.filter rowAllFinite

/-- The cleaned time column produced by `parseAll`'s loop. -/
def cleanTime (raw : List RawRow) : List ℚ := (cleanRows raw).map (fun r => r.time_s.toQ)

/-- Spec-side retention predicate written from the words of claim C1 and
specification section 4.1: the time and at least one required channel
value are finite. Used only to compare the specification against
`rowAllFinite`. -/
def specKeepRow (r : RawRow) : Bool :=
  r.time_s.isFiniteNum &&
    (r.tag1_residual_rad.isFiniteNum || r.tag2_residual_rad.isFiniteNum ||
      r.tag1_detrend_rad.isFiniteNum || r.tag2_detrend_rad.isFiniteNum)

/-- Tail of the strictly-increasing repair loop of `parseAll`: given the
(already repaired) previous value, keep each time if it strictly exceeds
it, otherwise replace it by the previous value plus `1e-6`. -/
def repairFrom (prev : ℚ) : List ℚ → List ℚ
  | [] => []
  | t :: ts =>
    if prev < t then t :: repairFrom t ts
    else (prev + 1e-6) :: repairFrom (prev + 1e-6) ts

/-- The whole repair loop of `parseAll` (`for (i = 1; ...)`): the first
element is untouched. -/
def enforceIncreasing : List ℚ → List ℚ
  | [] => []
  | t :: ts => t :: repairFrom t ts

/-- One caption emitted by `slidingWindowCaptions`. -/
structure Caption where
  window_index : ℕ
  label : Label
deriving DecidableEq

/-- Start of scan window `k`: `T0 + k * hop` (the source increments a
float accumulator; modelled exactly over `ℚ`). -/
def windowStart (T0 hop : ℚ) (k : ℕ) : ℚ := T0 + (k : ℚ) * hop

/-- Number of iterations of the scan loop
`for (start = T0; start <= T1 - 1e-9; start += hop)` when `hop > 0`. -/
def numWindows (T0 T1 hop : ℚ) : ℕ :=
  if T0 ≤ T1 - 1e-9 then (⌊(T1 - 1e-9 - T0) / hop⌋).toNat + 1 else 0

/-- The index-selection loop of one scan window in
`slidingWindowCaptions`: indices `i` with `t >= start` and, depending on
whether the window end stays strictly below the last time `T1`,
`t < start + winSec` (half-open) or `t <= start + winSec` (closed). -/
def windowIdx (time : List ℚ) (start winSec T1 : ℚ) : List ℕ :=
  (List.range time.length).filter (fun i =>
    decide (start ≤ time.getD i 0) &&
      (if start + winSec < T1 then decide (time.getD i 0 < start + winSec)
       else decide (time.getD i 0 ≤ start + winSec)))

/-- Source `labelFromSlope`: normalise the slope magnitude by
`sd / (seconds || 1) + EPS` and classify against the 1.5 and 0.4
thresholds. -/
noncomputable def labelFromSlope (slope : ℚ) (sd : ℝ) (seconds : ℚ) : Label :=
  let s : ℚ := if seconds = 0 then 1 else seconds
  let norm : ℝ := |(slope : ℝ)| / (sd / (s : ℚ) + (EPS : ℚ))
  if 1.5 ≤ norm then (if 0 < slope then Label.sharpRise else Label.sharpDrop)
  else if 0.4 ≤ norm then (if 0 < slope then Label.increasing else Label.decreasing)
  else Label.constant

/-- Source `slidingWindowCaptions`: empty for fewer than two samples;
otherwise scan the windows, skip any window holding fewer than two
samples, and classify the rest by the in-window linear fit. When the fit
is NaN (impossible here, two or more points) the source's NaN
comparisons fall through to the constant label. -/
noncomputable def slidingWindowCaptions (time y : List ℚ) (winSec hopSec : ℚ) : List Caption :=
  if time.length < 2 then []
  else
    let T0 := time.headD 0
    let T1 := time.getLastD 0
    (List.range (numWindows T0 T1 hopSec)).filterMap (fun k =>
      let start := windowStart T0 hopSec k
      let idx := windowIdx time start winSec T1
      if idx.length < 2 then none
      else
        let tk := idx.map (fun i => time.getD i 0)
        let yk := idx.map (fun i => y.getD i 0)
        let mu := yk.sum / (yk.length : ℚ)
        let sd : ℝ := Real.sqrt ((((yk.map (fun v => (v - mu) ^ 2)).sum / (yk.length : ℚ) : ℚ) : ℝ))
        match linearFitSlope tk yk with
        | some p => some ⟨k, labelFromSlope p.1 sd winSec⟩
        | none => some ⟨k, Label.constant⟩)

/-- Entry guard of `slidingWindowCaptions` including the JavaScript
falsy check `!time` for an absent array. -/
noncomputable def slidingWindowCaptionsO (time : Option (List ℚ)) (y : List ℚ)
    (winSec hopSec : ℚ) : List Caption :=
  match time with
  | none => []
  | some t => slidingWindowCaptions t y winSec hopSec

/-- The four cleaned channel value series of one file. -/
structure Series where
  tag1_residual_rad : List ℚ
  tag2_residual_rad : List ℚ
  tag1_detrend_rad : List ℚ
  tag2_detrend_rad : List ℚ

/-- One per-channel window row inside the merger, after the caption's
nominal bounds were resolved to sample timestamps. -/
structure ChanRow where
  window_index : ℕ
  start_time : ℚ
  end_time : ℚ
  label : Label

/-- Source `time.findIndex(t => t >= b)` (as `Option`; the source's `-1`
is replaced by 0 at the call site, modelled by `getD 0`). -/
def findIndexGe (b : ℚ) : List ℚ → Option ℕ
  | [] => none
  | t :: ts => if b ≤ t then some 0 else (findIndexGe b ts).map (· + 1)

/-- Bound-resolution step of `makeRows` inside
`buildCombinedStructuralSheet`: `si` is the first index at or after the
nominal start (0 when none), `ei` scans forward from `si` while the time
stays at or below the nominal end, `start_time = time[si]`, and
`end_time = time[ei] ?? nominalEnd`. -/
def resolveRow (time : List ℚ) (T0 winSec hopSec : ℚ) (c : Caption) : ChanRow :=
  let nominalStart := T0 + (c.window_index : ℚ) * hopSec
  let nominalEnd := nominalStart + winSec
  let si := (findIndexGe nominalStart time).getD 0
  let consec := ((time.drop si).takeWhile (fun t => decide (t ≤ nominalEnd))).length
  let ei := if consec = 0 then si else si + consec - 1
  { window_index := c.window_index,
    start_time := time.getD si 0,
    end_time := if ei < time.length then time.getD ei 0 else nominalEnd,
    label := c.label }

/-- Source `makeRows` inside `buildCombinedStructuralSheet`: caption the
channel and resolve each caption's nominal bounds to sample
timestamps. -/
noncomputable def makeRows (time y : List ℚ) (winSec hopSec : ℚ) : List ChanRow :=
  (slidingWindowCaptions time y winSec hopSec).map (resolveRow time (time.headD 0) winSec hopSec)

/-- Which channel a row came from, selecting the label column it sets. -/
inductive ChanKey where
  | t1r
  | t2r
  | t1d
  | t2d
deriving DecidableEq

/-- One merged structural output row (up to four channel labels; an
unset label stays `none`). -/
structure MergedRow where
  window_index : ℕ
  start_time : ℚ
  end_time : ℚ
  tag1_residual_label : Option Label
  tag2_residual_label : Option Label
  tag1_detrend_label : Option Label
  tag2_detrend_label : Option Label

/-- Write a channel's label into its column of a merged row. -/
def setLabel (row : MergedRow) (key : ChanKey) (l : Label) : MergedRow :=
  match key with
  | .t1r => { row with tag1_residual_label := some l }
  | .t2r => { row with tag2_residual_label := some l }
  | .t1d => { row with tag1_detrend_label := some l }
  | .t2d => { row with tag2_detrend_label := some l }

/-- The row a first-contributing channel seeds into the accumulator map. -/
def seedRow (r : ChanRow) : MergedRow :=
  ⟨r.window_index, r.start_time, r.end_time, none, none, none, none⟩

/-- Body of the source merge loop applied to one stored entry: the entry
holding the contributing row's index gets its `start_time` widened to the
minimum, its `end_time` widened to the maximum, and the contributing
channel's label set; other entries are untouched. -/
def updEntry (kr : ChanKey × ChanRow) (e : ℕ × MergedRow) : ℕ × MergedRow :=
  if e.1 == kr.2.window_index then
    (e.1, setLabel { e.2 with
        start_time := min e.2.start_time kr.2.start_time,
        end_time := max e.2.end_time kr.2.end_time } kr.1 kr.2.label)
  else e

/-- One iteration of the source merge loop over an insertion-ordered
association list modelling the JavaScript `Map`: seed the key if absent,
then widen the stored bounds and set the contributing channel's label. -/
def mergeStep (m : List (ℕ × MergedRow)) (kr : ChanKey × ChanRow) : List (ℕ × MergedRow) :=
  let m1 :=
    if (m.find? (fun e => e.1 == kr.2.window_index)).isSome then m
    else m ++ [(kr.2.window_index, seedRow kr.2)]
  m1.map (updEntry kr)

/-- The four per-channel row lists tagged with their label column, in the
order the source merges them. -/
noncomputable def taggedRows (time : List ℚ) (series : Series) (winSec hopSec : ℚ) :
    List (ChanKey × ChanRow) :=
  (makeRows time series.tag1_residual_rad winSec hopSec).map (fun r => (ChanKey.t1r, r)) ++
    (makeRows time series.tag2_residual_rad winSec hopSec).map (fun r => (ChanKey.t2r, r)) ++
    (makeRows time series.tag1_detrend_rad winSec hopSec).map (fun r => (ChanKey.t1d, r)) ++
    (makeRows time series.tag2_detrend_rad winSec hopSec).map (fun r => (ChanKey.t2d, r))

/-- The four untagged per-channel row lists, concatenated; these are the
channel-level windows the merge invariant ranges over. -/
noncomputable def allChanRows (time : List ℚ) (series : Series) (winSec hopSec : ℚ) :
    List ChanRow :=
  makeRows time series.tag1_residual_rad winSec hopSec ++
    makeRows time series.tag2_residual_rad winSec hopSec ++
    makeRows time series.tag1_detrend_rad winSec hopSec ++
    makeRows time series.tag2_detrend_rad winSec hopSec

/-- Source `buildCombinedStructuralSheet`: merge the four channels'
resolved rows through the accumulator map, then emit the values sorted
ascending by window index (the keys are distinct, so the sort is the
unique key-ordered permutation, as with the source's comparator). -/
noncomputable def buildCombinedStructuralSheet (time : List ℚ) (series : Series)
    (winSec hopSec : ℚ) : List MergedRow :=
  (((taggedRows time series winSec hopSec).foldl mergeStep []).map Prod.snd).mergeSort
    (fun a b => decide (a.window_index ≤ b.window_index))

/-- The starts of the channel-level windows sharing index `k`. -/
def chanStarts (rows : List ChanRow) (k : ℕ) : List ℚ :=
  (rows.filter (fun r => r.window_index == k)).map ChanRow.start_time

/-- The ends of the channel-level windows sharing index `k`. -/
def chanEnds (rows : List ChanRow) (k : ℕ) : List ℚ :=
  (rows.filter (fun r => r.window_index == k)).map ChanRow.end_time

/-- Spec-side resolution of a nominal window start (claim C3): the first
sample at or after it, the nominal value itself when no sample
qualifies. -/
def specResolveStart (time : List ℚ) (nS : ℚ) : ℚ :=
  (time.find? (fun t => decide (nS ≤ t))).getD nS

/-- Spec-side resolution of a nominal window end (claim C3): the last
sample at or before it, the nominal value itself when no sample
qualifies. -/
def specResolveEnd (time : List ℚ) (nE : ℚ) : ℚ :=
  ((time.filter (fun t => decide (t ≤ nE))).getLast?).getD nE

/-- Invariant of the merge fold: keys are the indices seen so far, each
key is stored once, each stored row carries its key as `window_index`,
and its bounds are the running minimum start and maximum end of the
processed channel rows sharing the key. -/
def MergeInv (processed : List (ChanKey × ChanRow)) (m : List (ℕ × MergedRow)) : Prop :=
  (∀ e ∈ m, e.2.window_index = e.1) ∧
    (m.map Prod.fst).Nodup ∧
    (∀ k : ℕ, (∃ e ∈ m, e.1 = k) ↔ k ∈ processed.map (fun kr => kr.2.window_index)) ∧
    (∀ e ∈ m,
      (chanStarts (processed.map Prod.snd) e.1).min? = some e.2.start_time ∧
        (chanEnds (processed.map Prod.snd) e.1).max? = some e.2.end_time)

/-! ## Helper lemmas -/

theorem getD_replicate_zero (n i : ℕ) : (List.replicate n (0 : ℚ)).getD i 0 = 0 := by
  rw [List.getD_eq_getElem?_getD]
  rcases Nat.lt_or_ge i n with h | h
  · rw [List.getElem?_eq_getElem (by simpa using h)]
    simp
  · rw [List.getElem?_eq_none (by simpa using h)]
    rfl

theorem autocorr_replicate_eq_zero (n : ℕ) (c : ℚ) (h3 : 3 ≤ n) :
    autocorrDecayHalf (List.replicate n c) = 0 := by
  have hne : (n : ℚ) ≠ 0 := Nat.cast_ne_zero.mpr (by omega)
  have hmap : (List.replicate n c).map
      (fun v => v - (List.replicate n c).sum / (n : ℚ)) = List.replicate n (0 : ℚ) := by
    rw [List.map_replicate, List.sum_replicate, nsmul_eq_mul, mul_div_cancel_left₀ c hne,
      sub_self]
  have hz : ((List.range (n - 0)).map
      (fun i => (List.replicate n (0 : ℚ)).getD i 0 * (List.replicate n (0 : ℚ)).getD (i + 0) 0)).sum
      = 0 := by
    apply List.sum_eq_zero
    intro x hx
    obtain ⟨i, _, rfl⟩ := List.mem_map.mp hx
    rw [getD_replicate_zero, zero_mul]
  rw [autocorrDecayHalf, if_neg (by rw [List.length_replicate]; omega)]
  simp only [List.length_replicate, hmap, hz]
  rw [if_pos (by norm_num [EPS])]

theorem chain_repairFrom (prev : ℚ) (l : List ℚ) :
    List.Chain (· < ·) prev (repairFrom prev l) := by
  induction l generalizing prev with
  | nil => exact List.Chain.nil
  | cons t ts ih =>
    rw [repairFrom]
    by_cases h : prev < t
    · rw [if_pos h]
      exact List.Chain.cons h (ih t)
    · rw [if_neg h]
      exact List.Chain.cons (lt_add_of_pos_right prev (by norm_num)) (ih _)

theorem chain'_enforceIncreasing (t : List ℚ) :
    List.Chain' (· < ·) (enforceIncreasing t) := by
  cases t with
  | nil => exact List.chain'_nil
  | cons a ts => exact chain_repairFrom a ts

/-! ## Claims -/

/-- C1, corrected: a row survives the cleaning of `parseAll` exactly when
it is in the input and all five required values (the time and all four
channels) are finite; membership in the cleaned list is nothing else. -/
theorem C1_clean_keeps_exactly_all_finite_rows (raw : List RawRow) (r : RawRow) :
    r ∈ cleanRows raw ↔ r ∈ raw ∧ rowAllFinite r = true := List.mem_filter

/-- C1, counterexample to the claim as stated: a row whose time and first
channel are finite but whose other channels are NaN satisfies the spec's
"time and at least one required channel finite" retention test, yet the
cleaning drops it. -/
theorem C1_counterexample :
    specKeepRow ⟨.fin 0, .fin 1, .nan, .nan, .nan⟩ = true ∧
      cleanRows [⟨.fin 0, .fin 1, .nan, .nan, .nan⟩] = [] := by
  constructor
  · rfl
  · rfl

/-- C5, corrected: `autocorrDecayHalf` returns the length for any series
shorter than 3; a constant series of length at least 3 has zero lag-0
energy, so the epsilon guard returns 0, not the length. -/
theorem C5_autocorr_short_and_constant :
    (∀ x : List ℚ, x.length < 3 → autocorrDecayHalf x = x.length) ∧
      (∀ (x : List ℚ) (c : ℚ), 3 ≤ x.length → (∀ v ∈ x, v = c) →
        autocorrDecayHalf x = 0) := by
  constructor
  · intro x h
    rw [autocorrDecayHalf, if_pos h]
  · intro x c h3 hc
    have hx : x = List.replicate x.length c := List.eq_replicate_length.mpr hc
    rw [hx]
    exact autocorr_replicate_eq_zero x.length c h3

/-- C5, counterexample to the claim as stated: the constant series
`[1, 1, 1]` has length 3 but `autocorrDecayHalf` returns 0, not 3. -/
theorem C5_counterexample :
    autocorrDecayHalf [(1 : ℚ), 1, 1] = 0 ∧ [(1 : ℚ), 1, 1].length = 3 := by
  constructor
  · have := autocorr_replicate_eq_zero 3 (1 : ℚ) le_rfl
    simpa [List.replicate] using this
  · rfl

/-- C8, confirmed: after the repair loop of `parseAll` (each
non-increasing step replaced by the previous value plus `1e-6`), the
time sequence is strictly increasing at every adjacent pair. -/
theorem C8_repaired_time_strictly_increasing (t : List ℚ) (i : ℕ)
    (h : i + 1 < (enforceIncreasing t).length) :
    (enforceIncreasing t).getD i 0 < (enforceIncreasing t).getD (i + 1) 0 := by
  have hc := chain'_enforceIncreasing t
  rw [List.chain'_iff_get] at hc
  have hi := hc i (by omega)
  rwa [List.get_eq_getElem, List.get_eq_getElem,
    ← List.getD_eq_getElem _ 0 (by omega), ← List.getD_eq_getElem _ 0 (by omega)] at hi

/-- C8 witness: the concrete input `[0, 0, 5]` has its stalled second
sample repaired to `1e-6`, strictly above the first. -/
theorem C8_witness :
    0 + 1 < (enforceIncreasing [(0 : ℚ), 0, 5]).length ∧
      (enforceIncreasing [(0 : ℚ), 0, 5]).getD 0 0 < (enforceIncreasing [(0 : ℚ), 0, 5]).getD 1 0 :=
  ⟨by norm_num [enforceIncreasing, repairFrom],
    C8_repaired_time_strictly_increasing [(0 : ℚ), 0, 5] 0
      (by norm_num [enforceIncreasing, repairFrom])⟩

/-- C9, confirmed: `autocorrDecayHalf` always returns a lag between 0 and
the series length inclusive. -/
theorem C9_autocorr_result_in_range (x : List ℚ) :
    0 ≤ autocorrDecayHalf x ∧ autocorrDecayHalf x ≤ x.length := by
  refine ⟨Nat.zero_le _, ?_⟩
  rw [autocorrDecayHalf]
  split
  · exact le_rfl
  · dsimp only
    split
    · exact Nat.zero_le _
    · split
      · next i heq =>
        have hm := List.mem_of_find?_eq_some heq
        rw [List.mem_range'] at hm
        obtain ⟨j, hj, rfl⟩ := hm
        omega
      · exact le_rfl

/-- C10, confirmed: `slidingWindowCaptions` returns the empty caption
list for an absent time array or one holding fewer than two samples,
whatever the window and hop parameters. -/
theorem C10_captions_empty_for_short_input (tO : Option (List ℚ)) (y : List ℚ) (W H : ℚ)
    (h : tO = none ∨ (tO.getD []).length < 2) :
    slidingWindowCaptionsO tO y W H = [] := by
  cases tO with
  | none => rfl
  | some t =>
    rcases h with h | h
    · exact absurd h (by simp)
    · rw [slidingWindowCaptionsO, slidingWindowCaptions, if_pos (by simpa using h)]

/-- C10 witness: a present single-sample time array yields no captions. -/
theorem C10_witness :
    ((some [(0 : ℚ)] : Option (List ℚ)) = none ∨
        ((some [(0 : ℚ)] : Option (List ℚ)).getD []).length < 2) ∧
      slidingWindowCaptionsO (some [(0 : ℚ)]) [] 1 1 = [] :=
  ⟨Or.inr (by simp), C10_captions_empty_for_short_input _ _ _ _ (Or.inr (by simp))⟩

/-- C4, corrected: when the aligned cleaned length is below 4,
`computeSeriesFeatures` returns the sentinel record in which every field
is the NaN sentinel except the sample count `n`, which holds the actual
cleaned length. -/
theorem C4_short_series_sentinel_record (time yIn : List JSNum)
    (h : min ((time.filter JSNum.isFiniteNum).map JSNum.toQ).length
        ((yIn.filter JSNum.isFiniteNum).map JSNum.toQ).length < 4) :
    computeSeriesFeatures time yIn =
      { fs := none,
        n := some ((min ((time.filter JSNum.isFiniteNum).map JSNum.toQ).length
          ((yIn.filter JSNum.isFiniteNum).map JSNum.toQ).length : ℕ) : ℚ),
        mean := none, std := none, mad := none, rng := none, skew := none, kurt := none,
        cv := none, slope := none, slope_r2 := none, ac_half := none,
        spectral_centroid := none, spectral_entropy := none, dom_freq := none,
        dom_power := none, band_0_2 := none, band_2_5 := none, band_5_10 := none,
        band_10_20 := none, low_mid := none } := by
  rw [computeSeriesFeatures]
  dsimp only
  rw [if_pos h]

/-- C4 witness: the empty inputs have cleaned length 0 and produce the
sentinel record with count 0. -/
theorem C4_witness :
    (min ((([] : List JSNum).filter JSNum.isFiniteNum).map JSNum.toQ).length
        ((([] : List JSNum).filter JSNum.isFiniteNum).map JSNum.toQ).length < 4) ∧
      computeSeriesFeatures [] [] =
        { fs := none,
          n := some ((min ((([] : List JSNum).filter JSNum.isFiniteNum).map JSNum.toQ).length
            ((([] : List JSNum).filter JSNum.isFiniteNum).map JSNum.toQ).length : ℕ) : ℚ),
          mean := none, std := none, mad := none, rng := none, skew := none, kurt := none,
          cv := none, slope := none, slope_r2 := none, ac_half := none,
          spectral_centroid := none, spectral_entropy := none, dom_freq := none,
          dom_power := none, band_0_2 := none, band_2_5 := none, band_5_10 := none,
          band_10_20 := none, low_mid := none } :=
  ⟨by simp, C4_short_series_sentinel_record [] [] (by simp)⟩

/-- C4, counterexample to the claim as stated: at the empty input the
sample-count field of the result holds the number 0, not the NaN
sentinel, so not every field is NaN. -/
theorem C4_counterexample :
    (computeSeriesFeatures [] []).n = some 0 ∧ (computeSeriesFeatures [] []).n ≠ none := by
  have h : computeSeriesFeatures [] [] =
      { fs := none, n := some ((min ((([] : List JSNum).filter JSNum.isFiniteNum).map
          JSNum.toQ).length ((([] : List JSNum).filter JSNum.isFiniteNum).map
          JSNum.toQ).length : ℕ) : ℚ),
        mean := none, std := none, mad := none, rng := none, skew := none, kurt := none,
        cv := none, slope := none, slope_r2 := none, ac_half := none,
        spectral_centroid := none, spectral_entropy := none, dom_freq := none,
        dom_power := none, band_0_2 := none, band_2_5 := none, band_5_10 := none,
        band_10_20 := none, low_mid := none } := by
    rw [computeSeriesFeatures]
    dsimp only
    rw [if_pos (by simp)]
  rw [h]
  exact ⟨by norm_num, by simp⟩

/-- C7, corrected: `spectralFeatures` returns the all-NaN record whenever
`fs` is not finite, or the raw series length is below 8, or `fs` is not
positive, or fewer than two finite samples remain; the embedding is a
total function, so no exception is raised. -/
theorem C7_spectral_sentinel_conditions (x : List JSNum) (fs : JSNum)
    (h : fs.isFiniteNum = false ∨ x.length < 8 ∨ fs.toQ ≤ 0 ∨
      (x.filter JSNum.isFiniteNum).length < 2) :
    spectralFeatures x fs = spectralNaN := by
  rcases h with h | h | h | h
  · rw [spectralFeatures, if_pos (by simp [h])]
  · rw [spectralFeatures, if_pos (by simp [h])]
  · by_cases h1 : (!fs.isFiniteNum || decide (x.length < 8)) = true
    · rw [spectralFeatures, if_pos h1]
    · rw [spectralFeatures, if_neg h1]
      dsimp only
      have h2 : rfftPower x fs = ⟨[], []⟩ := by
        rw [rfftPower, if_pos (by simp [h])]
      rw [h2]
      rfl
  · by_cases h1 : (!fs.isFiniteNum || decide (x.length < 8)) = true
    · rw [spectralFeatures, if_pos h1]
    · rw [spectralFeatures, if_neg h1]
      dsimp only
      by_cases h0 : (!fs.isFiniteNum || decide (fs.toQ ≤ 0)) = true
      · have h2 : rfftPower x fs = ⟨[], []⟩ := by rw [rfftPower, if_pos h0]
        rw [h2]
        rfl
      · have h2 : rfftPower x fs = ⟨[], []⟩ := by
          rw [rfftPower, if_neg h0]
          dsimp only
          rw [if_pos (by simpa using h)]
        rw [h2]
        rfl

/-- C7 witness: seven samples with a valid sampling rate fail the length
gate and give the all-NaN spectral record. -/
theorem C7_witness :
    (List.replicate 7 (JSNum.fin 0)).length < 8 ∧
      spectralFeatures (List.replicate 7 (JSNum.fin 0)) (JSNum.fin 1) = spectralNaN :=
  ⟨by simp, C7_spectral_sentinel_conditions _ _ (Or.inr (Or.inl (by simp)))⟩

/-- C7, counterexample to the claim as stated: eight entries of which
only two are finite pass the gate (which tests the raw length, not the
finite count), and with the finite positive sampling rate 10 the
spectral centroid comes back as an actual value, not the NaN
sentinel. -/
theorem C7_counterexample :
    (([JSNum.fin 1, JSNum.fin 2, JSNum.nan, JSNum.nan, JSNum.nan, JSNum.nan, JSNum.nan,
        JSNum.nan].filter JSNum.isFiniteNum).length < 8) ∧
      (spectralFeatures [JSNum.fin 1, JSNum.fin 2, JSNum.nan, JSNum.nan, JSNum.nan, JSNum.nan,
        JSNum.nan, JSNum.nan] (JSNum.fin 10)).spectral_centroid ≠ none := by
  refine ⟨by decide, ?_⟩
  have hr : (rfftPower [JSNum.fin 1, JSNum.fin 2, JSNum.nan, JSNum.nan, JSNum.nan, JSNum.nan,
      JSNum.nan, JSNum.nan] (JSNum.fin 10)).freqs.length = 2 := by
    rw [rfftPower, if_neg (by decide)]
    dsimp only
    rw [if_neg (by decide)]
    simp only [JSNum.isFiniteNum, isPowerOfTwo, List.filter, List.length_map]
    decide
  rw [spectralFeatures, if_neg (by decide)]
  dsimp only
  rw [if_neg (by rw [hr]; norm_num)]
  simp

/-- C5 witness: the two-sample series returns its length 2, and the
constant three-sample series returns 0. -/
theorem C5_witness :
    ([(5 : ℚ), 5].length < 3 ∧ autocorrDecayHalf [(5 : ℚ), 5] = [(5 : ℚ), 5].length) ∧
      (3 ≤ [(1 : ℚ), 1, 1].length ∧ autocorrDecayHalf [(1 : ℚ), 1, 1] = 0) :=
  ⟨⟨by norm_num, C5_autocorr_short_and_constant.1 [(5 : ℚ), 5] (by norm_num)⟩,
    ⟨by norm_num, C5_autocorr_short_and_constant.2 [(1 : ℚ), 1, 1] 1 (by norm_num)
      (by intro v hv; simp only [List.mem_cons, List.not_mem_nil, or_false] at hv
          rcases hv with h | h | h <;> exact h)⟩⟩

/-- Bridge between the modelled window count and the source loop
condition: for a positive hop, every scanned index `k` has its start at
or below `T1 - 1e-9`. -/
theorem windowStart_le_of_lt_numWindows (T0 T1 H : ℚ) (hH : 0 < H) (k : ℕ)
    (hk : k < numWindows T0 T1 H) : windowStart T0 H k ≤ T1 - 1e-9 := by
  rw [numWindows] at hk
  by_cases hc : T0 ≤ T1 - 1e-9
  · rw [if_pos hc] at hk
    have h0 : (0 : ℤ) ≤ ⌊(T1 - 1e-9 - T0) / H⌋ := by
      apply Int.floor_nonneg.mpr
      have : (0 : ℚ) ≤ T1 - 1e-9 - T0 := by linarith
      positivity
    have hk' : (k : ℤ) ≤ ⌊(T1 - 1e-9 - T0) / H⌋ := by omega
    rw [Int.le_floor] at hk'
    push_cast at hk'
    rw [windowStart]
    have := (le_div_iff₀ hH).mp hk'
    linarith
  · rw [if_neg hc] at hk
    omega

/-- C2, corrected: for every scanned window, the selection is the
half-open interval `[start, start + W)` when the window end stays
strictly below the last sample time, and the closed interval
`[start, start + W]` whenever the end reaches or passes it — not only
for the final admissible window. -/
theorem C2_window_boundary_rule (time : List ℚ) (W H : ℚ) (k i : ℕ) (hH : 0 < H)
    (hk : k < numWindows (time.headD 0) (time.getLastD 0) H) (hi : i < time.length) :
    (windowStart (time.headD 0) H k + W < time.getLastD 0 →
        (i ∈ windowIdx time (windowStart (time.headD 0) H k) W (time.getLastD 0) ↔
          time.getD i 0 ∈ Set.Ico (windowStart (time.headD 0) H k)
            (windowStart (time.headD 0) H k + W))) ∧
      (time.getLastD 0 ≤ windowStart (time.headD 0) H k + W →
        (i ∈ windowIdx time (windowStart (time.headD 0) H k) W (time.getLastD 0) ↔
          time.getD i 0 ∈ Set.Icc (windowStart (time.headD 0) H k)
            (windowStart (time.headD 0) H k + W))) ∧
      windowStart (time.headD 0) H k ≤ time.getLastD 0 - 1e-9 := by
  refine ⟨?_, ?_, windowStart_le_of_lt_numWindows _ _ _ hH k hk⟩
  · intro hlt
    simp only [windowIdx, List.mem_filter, List.mem_range, if_pos hlt, Bool.and_eq_true,
      decide_eq_true_eq, Set.mem_Ico]
    tauto
  · intro hge
    have hnlt : ¬(windowStart (time.headD 0) H k + W < time.getLastD 0) := not_lt.mpr hge
    simp only [windowIdx, List.mem_filter, List.mem_range, if_neg hnlt, Bool.and_eq_true,
      decide_eq_true_eq, Set.mem_Icc]
    tauto

/-- C2 witness: the single scanned window of the two-sample series
[0, 1] with window 1 and hop 1 reaches the end boundary, and the sample
at index 1 sits in its closed interval. -/
theorem C2_witness :
    (0 : ℚ) < 1 ∧ 0 < numWindows 0 1 1 ∧ (1 : ℕ) < [(0 : ℚ), 1].length ∧
      ((1 : ℚ) ≤ windowStart 0 1 0 + 1 →
        ((1 : ℕ) ∈ windowIdx [(0 : ℚ), 1] (windowStart 0 1 0) 1 1 ↔
          [(0 : ℚ), 1].getD 1 0 ∈ Set.Icc (windowStart 0 1 0) (windowStart 0 1 0 + 1))) := by
  have hk : 0 < numWindows 0 1 1 := by
    rw [numWindows, if_pos (by norm_num)]
    omega
  refine ⟨by norm_num, hk, by norm_num, ?_⟩
  have h := C2_window_boundary_rule [(0 : ℚ), 1] 1 1 0 1 (by norm_num)
    (by simpa using hk) (by norm_num)
  simpa using h.2.1

/-- C2, counterexample to the claim as stated: with samples
[0, 1/2, 3/2, 2], window length 3/2 and hop 1/2, the scan admits four
windows (indices 0 to 3). Window 1 starts at 1/2 and ends at 2, which
already reaches the last sample time, so it uses the closed interval and
includes the sample at index 3 lying exactly at its end boundary — yet
window 1 is not the final admissible window. -/
theorem C2_counterexample :
    numWindows 0 2 (1 / 2) = 4 ∧
      (3 : ℕ) ∈ windowIdx [0, 1 / 2, 3 / 2, 2] (windowStart 0 (1 / 2) 1) (3 / 2) 2 ∧
      [0, 1 / 2, (3 / 2 : ℚ), 2].getD 3 0 = windowStart 0 (1 / 2) 1 + 3 / 2 ∧
      (1 : ℕ) ≠ 4 - 1 := by
  have hw : windowIdx [0, 1 / 2, 3 / 2, 2] (windowStart 0 (1 / 2) 1) (3 / 2) 2 = [1, 2, 3] := by
    norm_num [windowIdx, windowStart, List.range, List.range.loop, List.filter]
  refine ⟨?_, ?_, by norm_num [windowStart], by norm_num⟩
  · rw [numWindows, if_pos (by norm_num)]
    norm_num
    decide
  · rw [hw]
    simp

/-- Characterisation of a successful `findIndexGe`: the found index is in
range, its sample is at or after the bound, and every earlier sample is
strictly before it. -/
theorem findIndexGe_some_spec (b : ℚ) (l : List ℚ) (i : ℕ) (h : findIndexGe b l = some i) :
    i < l.length ∧ b ≤ l.getD i 0 ∧ ∀ j, j < i → l.getD j 0 < b := by
  induction l generalizing i with
  | nil => cases h
  | cons t ts ih =>
    rw [findIndexGe] at h
    by_cases hb : b ≤ t
    · rw [if_pos hb] at h
      cases h
      exact ⟨by simp, by simpa using hb, fun j hj => absurd hj (by omega)⟩
    · rw [if_neg hb] at h
      cases hfi : findIndexGe b ts with
      | none => rw [hfi] at h; cases h
      | some i' =>
        rw [hfi] at h
        simp only [Option.map_some'] at h
        cases h
        obtain ⟨h1, h2, h3⟩ := ih i' hfi
        refine ⟨by simpa using h1, by simpa using h2, ?_⟩
        intro j hj
        cases j with
        | zero => simpa using lt_of_not_le hb
        | succ j' =>
          rw [List.getD_cons_succ]
          exact h3 j' (by omega)

/-- When some sample is at or after the bound, `findIndexGe` succeeds. -/
theorem findIndexGe_isSome_of_exists (b : ℚ) (l : List ℚ) (i : ℕ) (hi : i < l.length)
    (hbi : b ≤ l.getD i 0) : (findIndexGe b l).isSome := by
  induction l generalizing i with
  | nil => simp at hi
  | cons t ts ih =>
    rw [findIndexGe]
    by_cases hb : b ≤ t
    · rw [if_pos hb]; rfl
    · rw [if_neg hb]
      cases i with
      | zero => exact absurd (by simpa using hbi) hb
      | succ i' =>
        have := ih i' (by simpa using hi) (by simpa using hbi)
        rw [Option.isSome_map']
        exact this

/-- The sample found by `find?` at the first qualifying position agrees
with `findIndexGe`. -/
theorem find?_eq_of_findIndexGe (b : ℚ) (l : List ℚ) (i : ℕ) (h : findIndexGe b l = some i) :
    l.find? (fun t => decide (b ≤ t)) = some (l.getD i 0) := by
  induction l generalizing i with
  | nil => cases h
  | cons t ts ih =>
    rw [findIndexGe] at h
    by_cases hb : b ≤ t
    · rw [if_pos hb] at h
      cases h
      rw [List.find?_cons_of_pos _ (by simpa using hb)]
      simp
    · rw [if_neg hb] at h
      cases hfi : findIndexGe b ts with
      | none => rw [hfi] at h; cases h
      | some i' =>
        rw [hfi] at h
        simp only [Option.map_some'] at h
        cases h
        rw [List.find?_cons_of_neg _ (by simpa using hb), List.getD_cons_succ]
        exact ih i' hfi

/-- Every `takeWhile` result is the prefix of its own length. -/
theorem takeWhile_eq_take_len (p : ℚ → Bool) (l : List ℚ) :
    l.takeWhile p = l.take (l.takeWhile p).length := by
  induction l with
  | nil => rfl
  | cons t ts ih =>
    rw [List.takeWhile_cons]
    by_cases hp : p t = true
    · rw [if_pos hp, List.length_cons, List.take_succ_cons, ← ih]
    · rw [if_neg hp]
      rfl

/-- The length of a `takeWhile` result never exceeds the input length. -/
theorem takeWhile_length_le (p : ℚ → Bool) (l : List ℚ) :
    (l.takeWhile p).length ≤ l.length := by
  induction l with
  | nil => simp
  | cons t ts ih =>
    rw [List.takeWhile_cons]
    by_cases hp : p t = true
    · rw [if_pos hp]
      simpa using ih
    · rw [if_neg hp]
      simp

/-- Splitting a `takeWhile` at a position whose whole prefix satisfies
the predicate. -/
theorem takeWhile_length_split (p : ℚ → Bool) (l : List ℚ) (n : ℕ) (hn : n ≤ l.length)
    (h : ∀ j, j < n → p (l.getD j 0) = true) :
    (l.takeWhile p).length = n + ((l.drop n).takeWhile p).length := by
  induction n generalizing l with
  | zero => simp
  | succ n' ih =>
    cases l with
    | nil => simp at hn
    | cons t ts =>
      have hpt : p t = true := by simpa using h 0 (by omega)
      rw [List.takeWhile_cons, if_pos hpt, List.length_cons, List.drop_succ_cons,
        ih ts (by simpa using hn) (fun j hj => by simpa using h (j + 1) (by omega))]
      omega

/-- In a strictly sorted list, values are monotone in the index. -/
theorem sorted_getD_le (l : List ℚ) (hs : List.Pairwise (· < ·) l) (i j : ℕ) (hij : i ≤ j)
    (hj : j < l.length) : l.getD i 0 ≤ l.getD j 0 := by
  rcases eq_or_lt_of_le hij with rfl | hlt
  · exact le_rfl
  · have := List.pairwise_iff_getElem.mp hs i j (by omega) hj hlt
    rw [List.getD_eq_getElem _ _ (by omega), List.getD_eq_getElem _ _ hj]
    exact le_of_lt this

/-- In a strictly sorted list, filtering by an upper bound equals taking
the prefix below it. -/
theorem filter_eq_takeWhile_sorted (b : ℚ) (l : List ℚ) (hs : List.Pairwise (· < ·) l) :
    l.filter (fun t => decide (t ≤ b)) = l.takeWhile (fun t => decide (t ≤ b)) := by
  induction l with
  | nil => rfl
  | cons t ts ih =>
    rw [List.pairwise_cons] at hs
    obtain ⟨hall, hs'⟩ := hs
    rw [List.filter_cons, List.takeWhile_cons]
    by_cases hb : t ≤ b
    · rw [if_pos (by simpa using hb), if_pos (by simpa using hb), ih hs']
    · rw [if_neg (by simpa using hb), if_neg (by simpa using hb)]
      rw [List.filter_eq_nil_iff]
      intro a ha
      simp only [decide_eq_true_eq]
      have := hall a ha
      intro hab
      exact hb (le_trans (le_of_lt this) hab)

/-- The last entry of a nonempty prefix. -/
theorem getLast?_take_of_nonempty (l : List ℚ) (m : ℕ) (h1 : 0 < m) (h2 : m ≤ l.length) :
    (l.take m).getLast? = some (l.getD (m - 1) 0) := by
  rw [List.getLast?_eq_getElem?, List.length_take]
  have hm : m ⊓ l.length = m := min_eq_left h2
  rw [hm, List.getElem?_take, if_pos (by omega), List.getElem?_eq_getElem (by omega),
    List.getD_eq_getElem _ _ (by omega)]

/-- Membership in a window's index selection gives range and the two
bound inequalities (weakened to the closed ones). -/
theorem mem_windowIdx_spec (time : List ℚ) (start W T1 : ℚ) (i : ℕ)
    (h : i ∈ windowIdx time start W T1) :
    i < time.length ∧ start ≤ time.getD i 0 ∧ time.getD i 0 ≤ start + W := by
  rw [windowIdx, List.mem_filter, List.mem_range] at h
  obtain ⟨hi, hcond⟩ := h
  rw [Bool.and_eq_true, decide_eq_true_eq] at hcond
  obtain ⟨h1, h2⟩ := hcond
  refine ⟨hi, h1, ?_⟩
  split at h2
  · exact le_of_lt (of_decide_eq_true h2)
  · exact of_decide_eq_true h2

/-- Every emitted caption comes from a window of the scan with at least
two selected samples. -/
theorem caption_spec (time y : List ℚ) (W H : ℚ) (c : Caption)
    (hc : c ∈ slidingWindowCaptions time y W H) :
    2 ≤ time.length ∧
      2 ≤ (windowIdx time (windowStart (time.headD 0) H c.window_index) W
        (time.getLastD 0)).length := by
  rw [slidingWindowCaptions] at hc
  by_cases h2 : time.length < 2
  · rw [if_pos h2] at hc
    cases hc
  · rw [if_neg h2] at hc
    dsimp only at hc
    rw [List.mem_filterMap] at hc
    obtain ⟨k, _, hfk⟩ := hc
    by_cases hlen : (windowIdx time (windowStart (time.headD 0) H k) W (time.getLastD 0)).length < 2
    · rw [if_pos hlen] at hfk
      cases hfk
    · rw [if_neg hlen] at hfk
      have hck : c.window_index = k := by
        cases hm : linearFitSlope
            ((windowIdx time (windowStart (time.headD 0) H k) W (time.getLastD 0)).map
              (fun i => time.getD i 0))
            ((windowIdx time (windowStart (time.headD 0) H k) W (time.getLastD 0)).map
              (fun i => y.getD i 0)) with
        | some p =>
          rw [hm] at hfk
          cases hfk
          rfl
        | none =>
          rw [hm] at hfk
          cases hfk
          rfl
      rw [hck]
      exact ⟨by omega, by omega⟩

/-- Core resolution lemma: when the time sequence is strictly sorted, the
window length is positive, and some sample lies inside the nominal
window, `resolveRow` resolves the bounds to the first sample at or after
the nominal start and the last sample at or before the nominal end. -/
theorem resolveRow_spec (time : List ℚ) (T0 W H : ℚ) (c : Caption)
    (hs : List.Pairwise (· < ·) time) (hW : 0 < W)
    (hex : ∃ i0, i0 < time.length ∧ T0 + (c.window_index : ℚ) * H ≤ time.getD i0 0 ∧
      time.getD i0 0 ≤ T0 + (c.window_index : ℚ) * H + W) :
    (resolveRow time T0 W H c).start_time
        = specResolveStart time (T0 + (c.window_index : ℚ) * H) ∧
      (resolveRow time T0 W H c).end_time
        = specResolveEnd time (T0 + (c.window_index : ℚ) * H + W) := by
  obtain ⟨i0, hi0len, hi0ge, hi0le⟩ := hex
  have hsome := findIndexGe_isSome_of_exists (T0 + (c.window_index : ℚ) * H) time i0 hi0len hi0ge
  obtain ⟨si, hsi⟩ := Option.isSome_iff_exists.mp hsome
  obtain ⟨hsilen, hsige, hsimin⟩ :=
    findIndexGe_some_spec (T0 + (c.window_index : ℚ) * H) time si hsi
  have hsiD : (findIndexGe (T0 + (c.window_index : ℚ) * H) time).getD 0 = si := by
    rw [hsi]
    rfl
  have hsile : si ≤ i0 := by
    by_contra hgt
    exact absurd hi0ge (not_le.mpr (hsimin i0 (by omega)))
  have hple : time.getD si 0 ≤ T0 + (c.window_index : ℚ) * H + W :=
    le_trans (sorted_getD_le time hs si i0 hsile hi0len) hi0le
  have hdrop : time.drop si = time.getD si 0 :: time.drop (si + 1) := by
    rw [List.getD_eq_getElem _ _ hsilen]
    exact List.drop_eq_getElem_cons hsilen
  have hconsec1 : 0 <
      ((time.drop si).takeWhile
        (fun t => decide (t ≤ T0 + (c.window_index : ℚ) * H + W))).length := by
    rw [hdrop, List.takeWhile_cons, if_pos (by simpa using hple)]
    simp
  have hpre : ∀ j, j < si →
      (fun t => decide (t ≤ T0 + (c.window_index : ℚ) * H + W)) (time.getD j 0) = true := by
    intro j hj
    simp only [decide_eq_true_eq]
    have := hsimin j hj
    linarith
  have hsplit := takeWhile_length_split
    (fun t => decide (t ≤ T0 + (c.window_index : ℚ) * H + W)) time si (le_of_lt hsilen) hpre
  have hctot : si +
      ((time.drop si).takeWhile
        (fun t => decide (t ≤ T0 + (c.window_index : ℚ) * H + W))).length ≤ time.length := by
    have h1 := takeWhile_length_le
      (fun t => decide (t ≤ T0 + (c.window_index : ℚ) * H + W)) (time.drop si)
    rw [List.length_drop] at h1
    omega
  have hlast : (time.filter
        (fun t => decide (t ≤ T0 + (c.window_index : ℚ) * H + W))).getLast?
      = some (time.getD (si +
        ((time.drop si).takeWhile
          (fun t => decide (t ≤ T0 + (c.window_index : ℚ) * H + W))).length - 1) 0) := by
    rw [filter_eq_takeWhile_sorted _ _ hs, takeWhile_eq_take_len, hsplit]
    exact getLast?_take_of_nonempty time _ (by omega) hctot
  constructor
  · rw [resolveRow]
    dsimp only
    rw [hsiD, specResolveStart, find?_eq_of_findIndexGe _ _ _ hsi]
    rfl
  · rw [resolveRow]
    dsimp only
    rw [hsiD]
    have hcz : ¬(((time.drop si).takeWhile
        (fun t => decide (t ≤ T0 + (c.window_index : ℚ) * H + W))).length = 0) := by omega
    simp only [if_neg hcz]
    have hlt : si + ((time.drop si).takeWhile
        (fun t => decide (t ≤ T0 + (c.window_index : ℚ) * H + W))).length - 1 < time.length := by
      omega
    simp only [if_pos hlt]
    rw [specResolveEnd, hlast]
    rfl

/-- C3, confirmed: for a strictly increasing time sequence and a positive
window length, every per-channel caption row built by the merger has its
start resolved to the first sample at or after the nominal window start
and its end to the last sample at or before the nominal window end, with
the nominal bound itself as the fallback value were no sample to
qualify. -/
theorem C3_resolved_window_bounds (time y : List ℚ) (W H : ℚ)
    (hs : List.Chain' (· < ·) time) (hW : 0 < W) :
    ∀ row ∈ makeRows time y W H,
      row.start_time = specResolveStart time (time.headD 0 + (row.window_index : ℚ) * H) ∧
        row.end_time = specResolveEnd time (time.headD 0 + (row.window_index : ℚ) * H + W) := by
  intro row hrow
  rw [makeRows, List.mem_map] at hrow
  obtain ⟨c, hc, rfl⟩ := hrow
  obtain ⟨_, hwin⟩ := caption_spec time y W H c hc
  obtain ⟨i0, hi0⟩ := List.exists_mem_of_length_pos
    (show 0 < (windowIdx time (windowStart (time.headD 0) H c.window_index) W
      (time.getLastD 0)).length by omega)
  obtain ⟨hi0len, hge, hle⟩ := mem_windowIdx_spec _ _ _ _ _ hi0
  rw [windowStart] at hge hle
  have hp := List.chain'_iff_pairwise.mp hs
  exact resolveRow_spec time (time.headD 0) W H c hp hW ⟨i0, hi0len, hge, hle⟩

/-- C3 witness: a concrete sorted three-sample series with window 1 and
hop 1/2; the theorem's hypotheses hold and every produced row satisfies
the resolved-bound equations. -/
theorem C3_witness :
    List.Chain' (· < ·) [(0 : ℚ), 1 / 2, 1] ∧ (0 : ℚ) < 1 ∧
      ∀ row ∈ makeRows [(0 : ℚ), 1 / 2, 1] [0, 0, 0] 1 (1 / 2),
        row.start_time = specResolveStart [(0 : ℚ), 1 / 2, 1]
            ([(0 : ℚ), 1 / 2, 1].headD 0 + (row.window_index : ℚ) * (1 / 2)) ∧
          row.end_time = specResolveEnd [(0 : ℚ), 1 / 2, 1]
            ([(0 : ℚ), 1 / 2, 1].headD 0 + (row.window_index : ℚ) * (1 / 2) + 1) := by
  have hchain : List.Chain' (· < ·) [(0 : ℚ), 1 / 2, 1] :=
    List.chain'_cons.mpr ⟨by norm_num, List.chain'_cons.mpr ⟨by norm_num,
      List.chain'_singleton _⟩⟩
  exact ⟨hchain, by norm_num,
    C3_resolved_window_bounds [(0 : ℚ), 1 / 2, 1] [0, 0, 0] 1 (1 / 2) hchain (by norm_num)⟩

/-- The running minimum of a fold is a lower bound and is attained. -/
theorem foldl_min_spec (xs : List ℚ) (a : ℚ) :
    xs.foldl min a ≤ a ∧ (∀ b ∈ xs, xs.foldl min a ≤ b) ∧
      (xs.foldl min a = a ∨ xs.foldl min a ∈ xs) := by
  induction xs generalizing a with
  | nil => simp
  | cons x xs ih =>
    obtain ⟨h1, h2, h3⟩ := ih (min a x)
    rw [List.foldl_cons]
    refine ⟨le_trans h1 (min_le_left a x), ?_, ?_⟩
    · intro b hb
      rcases List.mem_cons.mp hb with rfl | hb
      · exact le_trans h1 (min_le_right a b)
      · exact h2 b hb
    · rcases h3 with h | h
      · rcases min_choice a x with hm | hm
        · left
          rw [h, hm]
        · right
          rw [h, hm]
          exact List.mem_cons_self x xs
      · right
        exact List.mem_cons_of_mem x h

/-- The running maximum of a fold is an upper bound and is attained. -/
theorem foldl_max_spec (xs : List ℚ) (a : ℚ) :
    a ≤ xs.foldl max a ∧ (∀ b ∈ xs, b ≤ xs.foldl max a) ∧
      (xs.foldl max a = a ∨ xs.foldl max a ∈ xs) := by
  induction xs generalizing a with
  | nil => simp
  | cons x xs ih =>
    obtain ⟨h1, h2, h3⟩ := ih (max a x)
    rw [List.foldl_cons]
    refine ⟨le_trans (le_max_left a x) h1, ?_, ?_⟩
    · intro b hb
      rcases List.mem_cons.mp hb with rfl | hb
      · exact le_trans (le_max_right a b) h1
      · exact h2 b hb
    · rcases h3 with h | h
      · rcases max_choice a x with hm | hm
        · left
          rw [h, hm]
        · right
          rw [h, hm]
          exact List.mem_cons_self x xs
      · right
        exact List.mem_cons_of_mem x h

/-- A computed list minimum is a member and a lower bound. -/
theorem min?_spec (l : List ℚ) (m : ℚ) (h : l.min? = some m) :
    m ∈ l ∧ ∀ b ∈ l, m ≤ b := by
  cases l with
  | nil => cases h
  | cons a as =>
    have he : (a :: as).min? = some (as.foldl min a) := rfl
    rw [he, Option.some_inj] at h
    obtain ⟨h1, h2, h3⟩ := foldl_min_spec as a
    subst h
    refine ⟨?_, ?_⟩
    · rcases h3 with h | h
      · rw [h]
        exact List.mem_cons_self a as
      · exact List.mem_cons_of_mem a h
    · intro b hb
      rcases List.mem_cons.mp hb with rfl | hb
      · exact h1
      · exact h2 b hb

/-- A computed list maximum is a member and an upper bound. -/
theorem max?_spec (l : List ℚ) (m : ℚ) (h : l.max? = some m) :
    m ∈ l ∧ ∀ b ∈ l, b ≤ m := by
  cases l with
  | nil => cases h
  | cons a as =>
    have he : (a :: as).max? = some (as.foldl max a) := rfl
    rw [he, Option.some_inj] at h
    obtain ⟨h1, h2, h3⟩ := foldl_max_spec as a
    subst h
    refine ⟨?_, ?_⟩
    · rcases h3 with h | h
      · rw [h]
        exact List.mem_cons_self a as
      · exact List.mem_cons_of_mem a h
    · intro b hb
      rcases List.mem_cons.mp hb with rfl | hb
      · exact h1
      · exact h2 b hb

/-- Appending one element to a list updates its minimum by a binary
`min` (or seeds it on an empty list). -/
theorem min?_concat (l : List ℚ) (a : ℚ) :
    (l ++ [a]).min? = some (l.min?.elim a (fun m => min m a)) := by
  cases l with
  | nil => rfl
  | cons x xs =>
    have h1 : ((x :: xs) ++ [a]).min? = some ((xs ++ [a]).foldl min x) := rfl
    have h2 : (x :: xs).min? = some (xs.foldl min x) := rfl
    rw [h1, h2, List.foldl_append]
    rfl

/-- Appending one element to a list updates its maximum by a binary
`max` (or seeds it on an empty list). -/
theorem max?_concat (l : List ℚ) (a : ℚ) :
    (l ++ [a]).max? = some (l.max?.elim a (fun m => max m a)) := by
  cases l with
  | nil => rfl
  | cons x xs =>
    have h1 : ((x :: xs) ++ [a]).max? = some ((xs ++ [a]).foldl max x) := rfl
    have h2 : (x :: xs).max? = some (xs.foldl max x) := rfl
    rw [h1, h2, List.foldl_append]
    rfl

theorem setLabel_window_index (row : MergedRow) (key : ChanKey) (l : Label) :
    (setLabel row key l).window_index = row.window_index := by
  cases key <;> rfl

theorem setLabel_start_time (row : MergedRow) (key : ChanKey) (l : Label) :
    (setLabel row key l).start_time = row.start_time := by
  cases key <;> rfl

theorem setLabel_end_time (row : MergedRow) (key : ChanKey) (l : Label) :
    (setLabel row key l).end_time = row.end_time := by
  cases key <;> rfl

/-- Appending one channel row extends the per-index start list exactly
when the row carries that index. -/
theorem chanStarts_append_single (l : List ChanRow) (r : ChanRow) (k : ℕ) :
    chanStarts (l ++ [r]) k =
      chanStarts l k ++ (if r.window_index = k then [r.start_time] else []) := by
  rw [chanStarts, chanStarts, List.filter_append, List.map_append]
  congr 1
  by_cases hr : r.window_index = k
  · rw [if_pos hr]
    rw [List.filter_singleton, show (r.window_index == k) = true by simpa using hr]
    rfl
  · rw [if_neg hr]
    rw [List.filter_singleton, show (r.window_index == k) = false by simpa using hr]
    rfl

/-- Appending one channel row extends the per-index end list exactly when
the row carries that index. -/
theorem chanEnds_append_single (l : List ChanRow) (r : ChanRow) (k : ℕ) :
    chanEnds (l ++ [r]) k =
      chanEnds l k ++ (if r.window_index = k then [r.end_time] else []) := by
  rw [chanEnds, chanEnds, List.filter_append, List.map_append]
  congr 1
  by_cases hr : r.window_index = k
  · rw [if_pos hr]
    rw [List.filter_singleton, show (r.window_index == k) = true by simpa using hr]
    rfl
  · rw [if_neg hr]
    rw [List.filter_singleton, show (r.window_index == k) = false by simpa using hr]
    rfl

/-- An index contributed by no row has an empty start list. -/
theorem chanStarts_eq_nil (l : List ChanRow) (k : ℕ) (h : ∀ r ∈ l, r.window_index ≠ k) :
    chanStarts l k = [] := by
  rw [chanStarts, List.filter_eq_nil_iff.mpr, List.map_nil]
  intro r hr
  simpa using h r hr

/-- An index contributed by no row has an empty end list. -/
theorem chanEnds_eq_nil (l : List ChanRow) (k : ℕ) (h : ∀ r ∈ l, r.window_index ≠ k) :
    chanEnds l k = [] := by
  rw [chanEnds, List.filter_eq_nil_iff.mpr, List.map_nil]
  intro r hr
  simpa using h r hr

/-- The empty accumulator satisfies the merge invariant. -/
theorem mergeInv_nil : MergeInv [] [] := by
  refine ⟨by simp, by simp, by simp, by simp⟩


theorem updEntry_fst (kr : ChanKey × ChanRow) (e : ℕ × MergedRow) : (updEntry kr e).1 = e.1 := by
  rw [updEntry]
  by_cases hb : (e.1 == kr.2.window_index) = true
  · rw [if_pos hb]
  · rw [if_neg hb]

theorem updEntry_window_index (kr : ChanKey × ChanRow) (e : ℕ × MergedRow) :
    (updEntry kr e).2.window_index = e.2.window_index := by
  rw [updEntry]
  by_cases hb : (e.1 == kr.2.window_index) = true
  · rw [if_pos hb]
    exact setLabel_window_index _ _ _
  · rw [if_neg hb]

theorem updEntry_of_ne (kr : ChanKey × ChanRow) (e : ℕ × MergedRow)
    (h : e.1 ≠ kr.2.window_index) : updEntry kr e = e := by
  rw [updEntry, if_neg (by simpa using h)]

theorem updEntry_start_of_eq (kr : ChanKey × ChanRow) (e : ℕ × MergedRow)
    (h : e.1 = kr.2.window_index) :
    (updEntry kr e).2.start_time = min e.2.start_time kr.2.start_time := by
  rw [updEntry, if_pos (by simpa using h)]
  exact setLabel_start_time _ _ _

theorem updEntry_end_of_eq (kr : ChanKey × ChanRow) (e : ℕ × MergedRow)
    (h : e.1 = kr.2.window_index) :
    (updEntry kr e).2.end_time = max e.2.end_time kr.2.end_time := by
  rw [updEntry, if_pos (by simpa using h)]
  exact setLabel_end_time _ _ _

/-- One merge iteration preserves the merge invariant. -/
theorem mergeStep_inv (processed : List (ChanKey × ChanRow)) (m : List (ℕ × MergedRow))
    (kr : ChanKey × ChanRow) (h : MergeInv processed m) :
    MergeInv (processed ++ [kr]) (mergeStep m kr) := by
  obtain ⟨hwi, hnd, hpres, hmm⟩ := h
  have hmapsnd : (processed ++ [kr]).map Prod.snd = processed.map Prod.snd ++ [kr.2] := by
    simp
  have hmapwi : (processed ++ [kr]).map (fun p => p.2.window_index)
      = processed.map (fun p => p.2.window_index) ++ [kr.2.window_index] := by
    simp
  rw [mergeStep]
  by_cases hfind : ((m.find? (fun e => e.1 == kr.2.window_index)).isSome : Prop)
  · rw [if_pos hfind]
    have hk0 : ∃ e ∈ m, e.1 = kr.2.window_index := by
      obtain ⟨e, he, hb⟩ := List.find?_isSome.mp hfind
      exact ⟨e, he, by simpa using hb⟩
    refine ⟨?_, ?_, ?_, ?_⟩
    · intro e' he'
      obtain ⟨e, he, rfl⟩ := List.mem_map.mp he'
      rw [updEntry_fst, updEntry_window_index]
      exact hwi e he
    · have heq : (m.map (updEntry kr)).map Prod.fst = m.map Prod.fst := by
        rw [List.map_map]
        exact List.map_congr_left (fun e _ => updEntry_fst kr e)
      rw [heq]
      exact hnd
    · intro k
      rw [hmapwi, List.mem_append]
      constructor
      · rintro ⟨e', he', rfl⟩
        obtain ⟨e, he, rfl⟩ := List.mem_map.mp he'
        rw [updEntry_fst]
        exact Or.inl ((hpres e.1).mp ⟨e, he, rfl⟩)
      · rintro (hk | hk)
        · obtain ⟨e, he, hek⟩ := (hpres k).mpr hk
          exact ⟨updEntry kr e, List.mem_map.mpr ⟨e, he, rfl⟩, by rw [updEntry_fst]; exact hek⟩
        · rw [List.mem_singleton] at hk
          subst hk
          obtain ⟨e, he, hek⟩ := hk0
          exact ⟨updEntry kr e, List.mem_map.mpr ⟨e, he, rfl⟩, by rw [updEntry_fst]; exact hek⟩
    · intro e' he'
      obtain ⟨e, he, rfl⟩ := List.mem_map.mp he'
      obtain ⟨hmin, hmax⟩ := hmm e he
      rw [updEntry_fst, hmapsnd, chanStarts_append_single, chanEnds_append_single]
      by_cases hek : e.1 = kr.2.window_index
      · have hif : kr.2.window_index = e.1 := hek.symm
        rw [if_pos hif, if_pos hif, min?_concat, max?_concat, hmin, hmax,
          updEntry_start_of_eq kr e hek, updEntry_end_of_eq kr e hek]
        exact ⟨rfl, rfl⟩
      · have hif : ¬(kr.2.window_index = e.1) := fun hh => hek hh.symm
        rw [if_neg hif, if_neg hif, List.append_nil, List.append_nil, updEntry_of_ne kr e hek]
        exact ⟨hmin, hmax⟩
  · rw [if_neg hfind]
    have hnone : m.find? (fun e => e.1 == kr.2.window_index) = none :=
      Option.not_isSome_iff_eq_none.mp hfind
    have hkey : ∀ e ∈ m, e.1 ≠ kr.2.window_index := by
      intro e he
      have := List.find?_eq_none.mp hnone e he
      simpa using this
    have hseed_fst : (updEntry kr (kr.2.window_index, seedRow kr.2)).1 = kr.2.window_index :=
      updEntry_fst _ _
    have hseed_wi : (updEntry kr (kr.2.window_index, seedRow kr.2)).2.window_index
        = kr.2.window_index :=
      updEntry_window_index _ _
    have hseed_st : (updEntry kr (kr.2.window_index, seedRow kr.2)).2.start_time
        = kr.2.start_time := by
      rw [updEntry_start_of_eq _ _ rfl]
      exact min_self _
    have hseed_en : (updEntry kr (kr.2.window_index, seedRow kr.2)).2.end_time
        = kr.2.end_time := by
      rw [updEntry_end_of_eq _ _ rfl]
      exact max_self _
    have hm' : (m ++ [(kr.2.window_index, seedRow kr.2)]).map (updEntry kr)
        = m ++ [updEntry kr (kr.2.window_index, seedRow kr.2)] := by
      rw [List.map_append, List.map_singleton]
      congr 1
      have hid : m.map (updEntry kr) = m.map id :=
        List.map_congr_left (fun e he => by rw [updEntry_of_ne kr e (hkey e he), id_eq])
      rw [hid, List.map_id]
    rw [hm']
    refine ⟨?_, ?_, ?_, ?_⟩
    · intro e' he'
      rcases List.mem_append.mp he' with he' | he'
      · exact hwi e' he'
      · rw [List.mem_singleton] at he'
        subst he'
        rw [hseed_wi, hseed_fst]
    · rw [List.map_append, List.nodup_append]
      refine ⟨hnd, by simp, ?_⟩
      intro a ha hb
      rw [List.map_singleton, List.mem_singleton] at hb
      subst hb
      obtain ⟨e, he, hek⟩ := List.mem_map.mp ha
      rw [hseed_fst] at hek
      exact hkey e he hek
    · intro k
      rw [hmapwi, List.mem_append]
      constructor
      · rintro ⟨e', he', rfl⟩
        rcases List.mem_append.mp he' with he' | he'
        · exact Or.inl ((hpres e'.1).mp ⟨e', he', rfl⟩)
        · rw [List.mem_singleton] at he'
          subst he'
          right
          rw [List.mem_singleton, hseed_fst]
      · rintro (hk | hk)
        · obtain ⟨e, he, hek⟩ := (hpres k).mpr hk
          exact ⟨e, List.mem_append.mpr (Or.inl he), hek⟩
        · rw [List.mem_singleton] at hk
          subst hk
          exact ⟨updEntry kr (kr.2.window_index, seedRow kr.2),
            List.mem_append.mpr (Or.inr (by simp)), hseed_fst⟩
    · intro e' he'
      rw [hmapsnd]
      rcases List.mem_append.mp he' with he' | he'
      · obtain ⟨hmin, hmax⟩ := hmm e' he'
        rw [chanStarts_append_single, chanEnds_append_single,
          if_neg (fun hh => hkey e' he' hh.symm), if_neg (fun hh => hkey e' he' hh.symm),
          List.append_nil, List.append_nil]
        exact ⟨hmin, hmax⟩
      · rw [List.mem_singleton] at he'
        subst he'
        have hnil_s : chanStarts (processed.map Prod.snd) kr.2.window_index = [] := by
          apply chanStarts_eq_nil
          intro r hr hrk
          have hkmem : kr.2.window_index ∈ processed.map (fun p => p.2.window_index) := by
            obtain ⟨p, hp, rfl⟩ := List.mem_map.mp hr
            exact List.mem_map.mpr ⟨p, hp, by rw [hrk]⟩
          obtain ⟨e, he, hek⟩ := (hpres _).mpr hkmem
          exact hkey e he hek
        have hnil_e : chanEnds (processed.map Prod.snd) kr.2.window_index = [] := by
          apply chanEnds_eq_nil
          intro r hr hrk
          have hkmem : kr.2.window_index ∈ processed.map (fun p => p.2.window_index) := by
            obtain ⟨p, hp, rfl⟩ := List.mem_map.mp hr
            exact List.mem_map.mpr ⟨p, hp, by rw [hrk]⟩
          obtain ⟨e, he, hek⟩ := (hpres _).mpr hkmem
          exact hkey e he hek
        rw [hseed_fst, chanStarts_append_single, chanEnds_append_single, if_pos rfl, if_pos rfl,
          hnil_s, hnil_e, List.nil_append, List.nil_append, hseed_st, hseed_en]
        exact ⟨rfl, rfl⟩

/-- The whole merge fold preserves the invariant. -/
theorem foldl_mergeStep_inv (rows : List (ChanKey × ChanRow)) :
    ∀ (processed : List (ChanKey × ChanRow)) (m : List (ℕ × MergedRow)),
      MergeInv processed m → MergeInv (processed ++ rows) (rows.foldl mergeStep m) := by
  induction rows with
  | nil =>
    intro p m h
    simpa using h
  | cons kr rest ih =>
    intro p m h
    have h2 := ih (p ++ [kr]) (mergeStep m kr) (mergeStep_inv p m kr h)
    rwa [List.append_assoc, List.singleton_append] at h2

/-- Dropping the channel tags from the tagged rows yields the
concatenated channel rows. -/
theorem taggedRows_map_snd (time : List ℚ) (series : Series) (W H : ℚ) :
    (taggedRows time series W H).map Prod.snd = allChanRows time series W H := by
  rw [taggedRows, allChanRows]
  simp [List.map_map, Function.comp]

/-- The resolved per-channel bounds are ordered whenever the time
sequence is sorted and nonempty. -/
theorem resolveRow_start_le_end (time : List ℚ) (T0 W H : ℚ) (c : Caption)
    (hs : List.Pairwise (· < ·) time) (hlen : 0 < time.length) :
    (resolveRow time T0 W H c).start_time ≤ (resolveRow time T0 W H c).end_time := by
  rw [resolveRow]
  dsimp only
  have hsilen : (findIndexGe (T0 + (c.window_index : ℚ) * H) time).getD 0 < time.length := by
    cases hfi : findIndexGe (T0 + (c.window_index : ℚ) * H) time with
    | none => simpa using hlen
    | some i => simpa using (findIndexGe_some_spec _ _ _ hfi).1
  set si := (findIndexGe (T0 + (c.window_index : ℚ) * H) time).getD 0 with hsidef
  set consec := ((time.drop si).takeWhile
    (fun t => decide (t ≤ T0 + (c.window_index : ℚ) * H + W))).length with hcdef
  by_cases hcz : consec = 0
  · rw [if_pos hcz, if_pos hsilen]
  · rw [if_neg hcz]
    have hctot : si + consec ≤ time.length := by
      have h1 := takeWhile_length_le
        (fun t => decide (t ≤ T0 + (c.window_index : ℚ) * H + W)) (time.drop si)
      rw [List.length_drop] at h1
      rw [hcdef]
      omega
    rw [if_pos (by omega)]
    exact sorted_getD_le time hs si (si + consec - 1) (by omega) (by omega)

/-- Every row of one channel's resolved list has ordered bounds when the
time sequence is sorted. -/
theorem makeRows_start_le_end (time y : List ℚ) (W H : ℚ)
    (hp : List.Pairwise (· < ·) time) :
    ∀ r ∈ makeRows time y W H, r.start_time ≤ r.end_time := by
  intro r hr
  rw [makeRows, List.mem_map] at hr
  obtain ⟨c, hc, rfl⟩ := hr
  obtain ⟨h2, _⟩ := caption_spec time y W H c hc
  exact resolveRow_start_le_end time (time.headD 0) W H c hp (by omega)

/-- Every channel-level row of a file has ordered bounds when the time
sequence is sorted. -/
theorem allChanRows_start_le_end (time : List ℚ) (series : Series) (W H : ℚ)
    (hs : List.Chain' (· < ·) time) :
    ∀ r ∈ allChanRows time series W H, r.start_time ≤ r.end_time := by
  have hp := List.chain'_iff_pairwise.mp hs
  intro r hr
  rw [allChanRows] at hr
  rcases List.mem_append.mp hr with hr | hr
  · rcases List.mem_append.mp hr with hr | hr
    · rcases List.mem_append.mp hr with hr | hr
      · exact makeRows_start_le_end _ _ _ _ hp r hr
      · exact makeRows_start_le_end _ _ _ _ hp r hr
    · exact makeRows_start_le_end _ _ _ _ hp r hr
  · exact makeRows_start_le_end _ _ _ _ hp r hr

/-- C6, confirmed: in the merged structural sheet of a file with strictly
increasing time and positive hop, every output row's `start_time` is the
minimum start and its `end_time` the maximum end over all channel-level
windows sharing its index, an index appears in the sheet exactly when
some channel contributes it, every row satisfies
`start_time ≤ end_time`, and the rows are sorted strictly ascending by
`window_index`. -/
theorem C6_merge_bounds_and_order (time : List ℚ) (series : Series) (W H : ℚ)
    (hs : List.Chain' (· < ·) time) (hH : 0 < H) :
    (∀ row ∈ buildCombinedStructuralSheet time series W H,
        (chanStarts (allChanRows time series W H) row.window_index).min?
            = some row.start_time ∧
          (chanEnds (allChanRows time series W H) row.window_index).max?
            = some row.end_time ∧
          row.start_time ≤ row.end_time) ∧
      (∀ k : ℕ, (∃ r ∈ allChanRows time series W H, r.window_index = k) ↔
        ∃ row ∈ buildCombinedStructuralSheet time series W H, row.window_index = k) ∧
      List.Pairwise (fun a b => a.window_index < b.window_index)
        (buildCombinedStructuralSheet time series W H) := by
  have hinv := foldl_mergeStep_inv (taggedRows time series W H) [] [] mergeInv_nil
  rw [List.nil_append] at hinv
  obtain ⟨hwi, hnd, hpres, hmm⟩ := hinv
  have hsnd := taggedRows_map_snd time series W H
  have hperm : (buildCombinedStructuralSheet time series W H).Perm
      (((taggedRows time series W H).foldl mergeStep []).map Prod.snd) := by
    rw [buildCombinedStructuralSheet]
    exact List.mergeSort_perm _ _
  refine ⟨?_, ?_, ?_⟩
  · intro row hrow
    have hrow' : row ∈ ((taggedRows time series W H).foldl mergeStep []).map Prod.snd :=
      hperm.mem_iff.mp hrow
    obtain ⟨e, he, rfl⟩ := List.mem_map.mp hrow'
    have hkey := hwi e he
    obtain ⟨hmin, hmax⟩ := hmm e he
    rw [hsnd] at hmin hmax
    rw [← hkey] at hmin hmax
    refine ⟨hmin, hmax, ?_⟩
    obtain ⟨hmem_s, _⟩ := min?_spec _ _ hmin
    rw [chanStarts] at hmem_s
    obtain ⟨cr, hcr_f, hcr_eq⟩ := List.mem_map.mp hmem_s
    rw [List.mem_filter] at hcr_f
    obtain ⟨hcr_mem, hcr_k⟩ := hcr_f
    obtain ⟨_, hmax_ge⟩ := max?_spec _ _ hmax
    have hcr_end : cr.end_time ∈ chanEnds (allChanRows time series W H) e.2.window_index := by
      rw [chanEnds]
      exact List.mem_map.mpr ⟨cr, List.mem_filter.mpr ⟨hcr_mem, hcr_k⟩, rfl⟩
    calc e.2.start_time = cr.start_time := hcr_eq.symm
      _ ≤ cr.end_time := allChanRows_start_le_end time series W H hs cr hcr_mem
      _ ≤ e.2.end_time := hmax_ge _ hcr_end
  · intro k
    have hTk : (∃ r ∈ allChanRows time series W H, r.window_index = k) ↔
        k ∈ (taggedRows time series W H).map (fun kr => kr.2.window_index) := by
      constructor
      · rintro ⟨r, hr, rfl⟩
        rw [← hsnd] at hr
        obtain ⟨p, hp, rfl⟩ := List.mem_map.mp hr
        exact List.mem_map.mpr ⟨p, hp, rfl⟩
      · intro hk
        obtain ⟨p, hp, rfl⟩ := List.mem_map.mp hk
        refine ⟨p.2, ?_, rfl⟩
        rw [← hsnd]
        exact List.mem_map.mpr ⟨p, hp, rfl⟩
    rw [hTk, ← hpres]
    constructor
    · rintro ⟨e, he, rfl⟩
      refine ⟨e.2, ?_, hwi e he⟩
      exact hperm.mem_iff.mpr (List.mem_map.mpr ⟨e, he, rfl⟩)
    · rintro ⟨row, hrow, rfl⟩
      have hrow' : row ∈ ((taggedRows time series W H).foldl mergeStep []).map Prod.snd :=
        hperm.mem_iff.mp hrow
      obtain ⟨e, he, rfl⟩ := List.mem_map.mp hrow'
      exact ⟨e, he, (hwi e he).symm⟩
  · have hsorted := @List.sorted_mergeSort MergedRow
      (fun a b => decide (a.window_index ≤ b.window_index))
      (fun a b c hab hbc => by
        simp only [decide_eq_true_eq] at hab hbc ⊢
        omega)
      (fun a b => by
        simp only [Bool.or_eq_true, decide_eq_true_eq]
        omega)
      (((taggedRows time series W H).foldl mergeStep []).map Prod.snd)
    have hle : List.Pairwise (fun a b : MergedRow => a.window_index ≤ b.window_index)
        (buildCombinedStructuralSheet time series W H) := by
      rw [buildCombinedStructuralSheet]
      exact hsorted.imp (fun h => by simpa using h)
    have hkeys : ((buildCombinedStructuralSheet time series W H).map
        (fun r => r.window_index)).Nodup := by
      have hpm := hperm.map (fun r : MergedRow => r.window_index)
      have heq : (((taggedRows time series W H).foldl mergeStep []).map Prod.snd).map
          (fun r : MergedRow => r.window_index)
          = ((taggedRows time series W H).foldl mergeStep []).map Prod.fst := by
        rw [List.map_map]
        exact List.map_congr_left (fun e he => hwi e he)
      rw [heq] at hpm
      exact hpm.symm.nodup hnd
    have hne : List.Pairwise (fun a b : MergedRow => a.window_index ≠ b.window_index)
        (buildCombinedStructuralSheet time series W H) :=
      List.pairwise_map.mp hkeys
    exact (hle.and hne).imp (fun h => lt_of_le_of_ne h.1 h.2)

/-- C6 witness: a concrete sorted three-sample file with window 1 and hop
1/2 satisfies the hypotheses, so every merged row obeys the min/max
bound characterisation and the ordering. -/
theorem C6_witness :
    List.Chain' (· < ·) [(0 : ℚ), 1 / 2, 1] ∧ (0 : ℚ) < 1 / 2 ∧
      ∀ row ∈ buildCombinedStructuralSheet [(0 : ℚ), 1 / 2, 1]
          ⟨[0, 0, 0], [0, 0, 0], [0, 0, 0], [0, 0, 0]⟩ 1 (1 / 2),
        (chanStarts (allChanRows [(0 : ℚ), 1 / 2, 1]
              ⟨[0, 0, 0], [0, 0, 0], [0, 0, 0], [0, 0, 0]⟩ 1 (1 / 2)) row.window_index).min?
            = some row.start_time ∧
          (chanEnds (allChanRows [(0 : ℚ), 1 / 2, 1]
              ⟨[0, 0, 0], [0, 0, 0], [0, 0, 0], [0, 0, 0]⟩ 1 (1 / 2)) row.window_index).max?
            = some row.end_time ∧
          row.start_time ≤ row.end_time := by
  have hchain : List.Chain' (· < ·) [(0 : ℚ), 1 / 2, 1] :=
    List.chain'_cons.mpr ⟨by norm_num, List.chain'_cons.mpr ⟨by norm_num,
      List.chain'_singleton _⟩⟩
  exact ⟨hchain, by norm_num,
    (C6_merge_bounds_and_order [(0 : ℚ), 1 / 2, 1]
      ⟨[0, 0, 0], [0, 0, 0], [0, 0, 0], [0, 0, 0]⟩ 1 (1 / 2) hchain (by norm_num)).1⟩
